import Mathlib

/-!
Shallow embedding of the pythresh threshold strategies (AUCP, DECOMP, FGD,
HIST, MCST) over exact rational arithmetic.  The shared helper module
`thresh_utility` is not part of the reviewed source, so its functions are
modelled from the spec; the external numeric routines (the fitted KDE / CDF
estimators, the Shapiro-Wilk p-value, the sklearn decomposition, the seeded
uniform sampler) are taken as explicit function parameters.  Everything else
follows the source files line by line.
-/

namespace Pythresh

def listMin : List ℚ → ℚ
  | [] => 0
  | x :: xs => xs.foldl min x

def listMax : List ℚ → ℚ
  | [] => 0
  | x :: xs => xs.foldl max x

/-- Modelled from the spec: `normalize(v)` rescales linearly to `[0,1]` as
`(v - min(v)) / (max(v) - min(v))` (the helper `thresh_utility.normalize` is
not part of the reviewed source).  Division by zero in `ℚ` yields `0`, so a
constant vector maps to the all-zero vector. -/
def normalize (v : List ℚ) : List ℚ :=
  v.map (fun x => (x - listMin v) / (listMax v - listMin v))

/-- Modelled from the spec: `cut(raw, limit)` labels `1` where `raw > limit`,
else `0` (the helper `thresh_utility.cut` is not part of the reviewed
source). -/
def cut (raw : List ℚ) (limit : ℚ) : List ℕ :=
  raw.map (fun x => if limit < x then 1 else 0)

/-- Evenly spaced grid of `n` points over `[low, high]` (numpy `linspace`
with the default inclusive endpoint). -/
def linspace (low high : ℚ) (n : ℕ) : List ℚ :=
  (List.range n).map (fun (i : ℕ) => low + (i : ℚ) * (high - low) / ((n : ℚ) - 1))

/-- Modelled from the spec: `gen_kde(v, low, high, n)` fits a kernel density
estimate to `v` and evaluates it at `n` evenly spaced points in
`[low, high]`, returning `(values, grid)`.  The fitted density itself is an
external numeric routine (scipy), taken here as the parameter `density`,
mapping the data vector to its estimated density function. -/
def gen_kde (density : List ℚ → ℚ → ℚ) (v : List ℚ) (low high : ℚ) (n : ℕ) :
    List ℚ × List ℚ :=
  ((linspace low high n).map (density v), linspace low high n)

/-- Modelled from the spec: `gen_cdf(v, low, high, n)` evaluates an empirical
cumulative distribution estimate of `v` at `n` evenly spaced points in
`[low, high]`, returning `(values, grid)`.  The fitted CDF estimator is an
external numeric routine, taken here as the parameter `cdfEst`. -/
def gen_cdf (cdfEst : List ℚ → ℚ → ℚ) (v : List ℚ) (low high : ℚ) (n : ℕ) :
    List ℚ × List ℚ :=
  ((linspace low high n).map (cdfEst v), linspace low high n)

/-- Trapezoidal area under the points `(x i, y i)` (sklearn `metrics.auc` on
an increasing grid; numpy `trapz`).  This version is total and returns 0 on
fewer than two points, where sklearn raises
`ValueError: At least 2 points are needed`; the raising behavior is modelled
by `aucChecked` and `AUCP.evalChecked` below. -/
def auc : List ℚ → List ℚ → ℚ
  | x1 :: x2 :: xs, y1 :: y2 :: ys =>
      (x2 - x1) * (y1 + y2) / 2 + auc (x2 :: xs) (y2 :: ys)
  | _, _ => 0

/-- numpy `mean`. -/
def mean (v : List ℚ) : ℚ := v.sum / (v.length : ℚ)

/-- numpy `median`: middle element of the sorted vector, or the average of
the two middle elements when the length is even. -/
def median (v : List ℚ) : ℚ :=
  let s := List.insertionSort (· ≤ ·) v
  if v.length % 2 = 1 then s.getD (v.length / 2) 0
  else (s.getD (v.length / 2 - 1) 0 + s.getD (v.length / 2) 0) / 2

/-- numpy `gradient` of `val` with scalar spacing `dx`: one-sided differences
at the two ends, central differences in the interior. -/
def npGradient (val : List ℚ) (dx : ℚ) : List ℚ :=
  (List.range val.length).map (fun i =>
    if i = 0 then (val.getD 1 0 - val.getD 0 0) / dx
    else if i = val.length - 1 then (val.getD i 0 - val.getD (i - 1) 0) / dx
    else (val.getD (i + 1) 0 - val.getD (i - 1) 0) / (2 * dx))

/-! ### AUCP (`src/pythresh/thresholds/aucp.py`) -/

/-- Instance state of an `AUCP` thresholder: the retained `thresh_`
attribute (absent before the first `eval` call). -/
structure AUCP.State where
  thresh_ : Option ℚ := none

/-- The scan loop of `AUCP.eval`: walk the grid left to right and return the
first grid point at which the trapezoidal area of the remaining suffix drops
strictly below `bound`; default `1` when no index qualifies.  The default `1`
branch corresponds to the `limit = 1` initialisation in the source, which is
dead code for non-empty input: before the loop can run out, its final
iteration calls sklearn `auc` on a single-point suffix, which raises — see
`aucpScanChecked`. -/
def aucpScan (bound : ℚ) : List ℚ → List ℚ → ℚ
  | g :: gs, v :: vs =>
      if auc (g :: gs) (v :: vs) < bound then g else aucpScan bound gs vs
  | _, _ => 1

/-- `AUCP.eval`: normalize, KDE over `[0,1]` at `2n` points, normalize the
KDE values, compare suffix areas against
`(median + |median - mean|) * total_area`, label via `cut`. -/
def AUCP.eval (density : List ℚ → ℚ → ℚ) (_s : AUCP.State) (decision : List ℚ) :
    AUCP.State × List ℕ :=
  let d := normalize decision
  let kde := gen_kde density d 0 1 (d.length * 2)
  let val := normalize kde.1
  let tot_area := auc kde.2 val
  let med := median d
  let perc := med + |med - mean d|
  let limit := aucpScan (perc * tot_area) kde.2 val
  ({ thresh_ := some limit }, cut d limit)

/-- sklearn `metrics.auc` with its explicit input check: it raises
`ValueError` (here `none`) when the x-vector has fewer than 2 points, and
otherwise computes the trapezoidal area. -/
def aucChecked (x y : List ℚ) : Option ℚ :=
  if x.length < 2 then none else some (auc x y)

/-- The scan loop of `AUCP.eval` with sklearn's raising `auc`: each
iteration first computes the suffix area (raising, i.e. `none`, on a
single-point suffix) and only then compares it with `bound`.  The `some 1`
fallback is reached only for an empty grid, so for non-empty input the
`limit = 1` default of the source can never survive the loop. -/
def aucpScanChecked (bound : ℚ) : List ℚ → List ℚ → Option ℚ
  | g :: gs, v :: vs =>
      (aucChecked (g :: gs) (v :: vs)).bind (fun splt_area =>
        if splt_area < bound then some g else aucpScanChecked bound gs vs)
  | _, _ => some 1

/-- `AUCP.eval` with sklearn's raising `auc` propagated as `Option`
(`none` = the Python call raises `ValueError`): the faithful model of the
whole `aucp.py` eval including its error path. -/
def AUCP.evalChecked (density : List ℚ → ℚ → ℚ) (_s : AUCP.State)
    (decision : List ℚ) : Option (AUCP.State × List ℕ) :=
  let d := normalize decision
  let kde := gen_kde density d 0 1 (d.length * 2)
  let val := normalize kde.1
  (aucChecked kde.2 val).bind (fun tot_area =>
    let med := median d
    let perc := med + |med - mean d|
    (aucpScanChecked (perc * tot_area) kde.2 val).map (fun limit =>
      ({ thresh_ := some limit }, cut d limit)))

/-! ### FGD (`src/pythresh/thresholds/fgd.py`) -/

/-- Instance state of an `FGD` thresholder. -/
structure FGD.State where
  thresh_ : Option ℚ := none

/-- The inflection indices collected by the loop in `FGD.eval`: indices `i`
of the derivative vector (up to the second-to-last) with `deriv[i] > 0` and
`deriv[i+1] <= 0`.  The Python loop breaks after two hits, which leaves the
first two elements of this list unchanged. -/
def fgdInds (deriv : List ℚ) : List ℕ :=
  (List.range (deriv.length - 1)).filter
    (fun i => decide (0 < deriv.getD i 0) && decide (deriv.getD (i + 1) 0 ≤ 0))

/-- `FGD.eval`: normalize, KDE over `[0,1]` at `3n` points, discrete
derivative with respect to the grid spacing, midpoint of the first two
positive-to-nonpositive transitions (default `1.1` when fewer than two
exist, the `IndexError` branch), label via `cut`. -/
def FGD.eval (density : List ℚ → ℚ → ℚ) (_s : FGD.State) (decision : List ℚ) :
    FGD.State × List ℕ :=
  let d := normalize decision
  let kde := gen_kde density d 0 1 (d.length * 3)
  let deriv := npGradient kde.1 (kde.2.getD 1 0 - kde.2.getD 0 0)
  let limit :=
    match fgdInds deriv with
    | i0 :: i1 :: _ => (kde.2.getD i0 0 + kde.2.getD i1 0) / 2
    | _ => 1.1
  ({ thresh_ := some limit }, cut d limit)

/-! ### DECOMP (`src/pythresh/thresholds/decomp.py`) -/

/-- Instance state of a `DECOMP` thresholder.  The field `decomp` stands for
`self.method_funcs[str(self.method)].fit_transform` restricted to
single-feature matrices: the configured one-component PCA or NMF (each
constructed with the fixed `random_state=1234`, hence a pure function of its
input). -/
structure DECOMP.State where
  decomp : List ℚ → List ℚ
  thresh_ : Option ℚ := none

/-- `DECOMP.eval`: normalize, CDF estimate over `[0,1]` at `3n` points,
normalize it, decompose, take the maximum of the decomposition output,
reflect it as `1 - max` when it exceeds `0.5`, label via `cut`. -/
def DECOMP.eval (cdfEst : List ℚ → ℚ → ℚ) (s : DECOMP.State) (decision : List ℚ) :
    DECOMP.State × List ℕ :=
  let d := normalize decision
  let c := gen_cdf cdfEst d 0 1 (d.length * 3)
  let val := normalize c.1
  let dec := s.decomp val
  let m := listMax dec
  let limit := if (0.5 : ℚ) < m then 1 - m else m
  ({ s with thresh_ := some limit }, cut d limit)

/-! ### MCST (`src/pythresh/thresholds/mcst.py`) -/

/-- Instance state of an `MCST` thresholder: the seed passed to the uniform
sampler and the retained `thresh_`. -/
structure MCST.State where
  random_state : ℕ := 1234
  thresh_ : Option ℚ := none

/-- One iteration of the Monte-Carlo loop in `MCST.eval`: append the sample
`r` to the scores, recompute the Shapiro-Wilk p-value, and when it strictly
exceeds the running best, record `r` and update the best.  The accumulator
is `(p_std, povr)`. -/
def shapiroStep (shapiro : List ℚ → ℚ) (d : List ℚ) (st : ℚ × List ℚ) (r : ℚ) :
    ℚ × List ℚ :=
  let p_check := shapiro (d ++ [r])
  if st.1 < p_check then (p_check, st.2 ++ [r]) else st

/-- `MCST.eval`: normalize, baseline Shapiro-Wilk p-value, `n` seeded
uniform samples (the external sampler `rvs` takes size and seed), normalized;
the greedy loop records p-value-improving samples; threshold is the minimum
recorded sample, `1.1` when none; label via `cut`.  The Shapiro-Wilk p-value
is an external numeric routine, taken as the parameter `shapiro`. -/
def MCST.eval (shapiro : List ℚ → ℚ) (rvs : ℕ → ℕ → List ℚ) (s : MCST.State)
    (decision : List ℚ) : MCST.State × List ℕ :=
  let d := normalize decision
  let p_std := shapiro d
  let rnd := normalize (rvs d.length s.random_state)
  let res := rnd.foldl (shapiroStep shapiro d) (p_std, [])
  let limit := if res.2 = [] then 1.1 else listMin res.2
  ({ s with thresh_ := some limit }, cut d limit)

/-! ### HIST (`src/pythresh/thresholds/hist.py`) -/

/-- Number of binary digits of `n` (Python `int.bit_length`), written with a
fuel argument so that it evaluates by kernel reduction. -/
def bitLenAux : ℕ → ℕ → ℕ
  | 0, _ => 0
  | fuel + 1, n => if n = 0 then 0 else bitLenAux fuel (n / 2) + 1

/-- Number of binary digits of `n` (`n = 0` has 0 digits). -/
def bitLen (n : ℕ) : ℕ := bitLenAux n n

/-- Round `N / 2^s` to the nearest integer, ties to the even candidate — the
IEEE-754 default rounding applied to the `s` low-order bits of `N`. -/
def roundNearestEven (N s : ℕ) : ℕ :=
  let q := N / 2 ^ s
  let r := N % 2 ^ s
  if 2 * r < 2 ^ s then q
  else if 2 ^ s < 2 * r then q + 1
  else if q % 2 = 0 then q else q + 1

/-- The Python expression `int(len(decision)*0.7)` from `hist.py` line 241,
evaluated the way the program evaluates it, in IEEE double precision: the
double nearest `0.7` is `3152519739159347 / 2^52`; for `n < 2^53` the
integer `n` converts to double exactly, the product is rounded once to 53
significant bits (round to nearest, ties to even), and `int` truncates.
This equals the exact `⌊0.7 × n⌋` for all `n ≤ 89`, but not in general: at
`n = 90` the double product is `62.99999999999999` and the program uses 62
bins, not 63 (likewise `n = 170, 180, 330, …`). -/
def histNbinsFloat (n : ℕ) : ℕ :=
  let N := n * 3152519739159347
  let s := bitLen N - 53
  roundNearestEven N s * 2 ^ s / 2 ^ 52

/-- `histogram(decision, nbins)` from `hist.py`: numpy histogram counts over
the fixed range `(0,1)` (half-open bins, the last bin closed), together with
the bin centers.  Only meaningful for `nbins ≥ 1`: `np.histogram` raises on
`bins = 0`, which `HIST.evalOtsu` models by returning `none` before this
function is reached. -/
def histogram (decision : List ℚ) (nbins : ℕ) : List ℚ × List ℕ :=
  let edges := linspace 0 1 (nbins + 1)
  let centers := (List.range nbins).map
    (fun i => (edges.getD i 0 + edges.getD (i + 1) 0) / 2)
  let counts := (List.range nbins).map (fun i =>
    decision.countP (fun x =>
      decide (edges.getD i 0 ≤ x) &&
        (if i = nbins - 1 then decide (x ≤ edges.getD (i + 1) 0)
         else decide (x < edges.getD (i + 1) 0))))
  (centers, counts)

/-- Instance state of a `HIST` thresholder.  The field `threshFn` stands for
`self.method_funcs[str(self.method)]`, the selected histogram sub-algorithm
(otsu / yen / isodata / li / minimum / triangle), as a function of the
normalized scores, the bin centers and the counts (the scores argument is
only consumed by `li`, mirroring the dispatch in `HIST.eval`).  `nbins` is
the optional bin count, lazily filled in by `eval` when constructed as
`None`.  `threshFn` is a total abstraction of the dispatch target, adequate
only for calls on which the selected sub-algorithm returns: the in-src
sub-algorithms can raise (otsu takes an argmax of an empty array at a single
bin, isodata indexes an empty selection, minimum relies on two
post-smoothing maxima, li can iterate without bound), and the default
method's raising behavior is modelled faithfully by `HIST.evalOtsu` with the
embedded `OTSU_thres` below. -/
structure HIST.State where
  threshFn : List ℚ → List ℚ → List ℕ → ℚ
  nbins : Option ℕ := none
  thresh_ : Option ℚ := none

/-- `HIST.eval`: normalize, fill in the default bin count
`int(len(decision) * 0.7)` when `nbins` is `None` (storing it on the
instance), build the histogram, apply the selected sub-algorithm, and label
`1` exactly the normalized scores strictly above the returned bin-center
threshold (a direct comparison, not a call to `cut`). -/
def HIST.eval (s : HIST.State) (decision : List ℚ) : HIST.State × List ℕ :=
  let d := normalize decision
  let nb := s.nbins.getD ⌊(0.7 : ℚ) * (d.length : ℚ)⌋₊
  let h := histogram d nb
  let threshold := s.threshFn d h.1 h.2
  let scores := d.map (fun x => if threshold < x then (1 : ℕ) else 0)
  ({ s with nbins := some nb, thresh_ := some threshold }, scores)

/-- numpy `cumsum` on a rational vector. -/
def cumsum (l : List ℚ) : List ℚ := (l.scanl (· + ·) 0).tail

/-- Inner loop of `npArgmax`: `i` is the index of the next element, `best`
the index of the running maximum `bv`; a strict comparison keeps the first
occurrence of the maximum, as `np.argmax` does. -/
def argmaxAux : List ℚ → ℕ → ℕ → ℚ → ℕ
  | [], _, best, _ => best
  | y :: ys, i, best, bv =>
      if bv < y then argmaxAux ys (i + 1) i y else argmaxAux ys (i + 1) best bv

/-- `np.argmax`: index of the first maximum; `none` models the `ValueError`
numpy raises on an empty array. -/
def npArgmax : List ℚ → Option ℕ
  | [] => none
  | x :: xs => some (argmaxAux xs 1 0 x)

/-- `OTSU_thres(bin_centers, counts)` from `hist.py` lines 35-53: left/right
cumulative weights and weighted means, inter-class variance
`weight1[:-1] * weight2[1:] * (mean1[:-1] - mean2[1:])**2`, threshold at the
argmax.  With a single bin the variance array is empty and `np.argmax`
raises (`none`).  Divisions by a zero cumulative weight yield 0 in `ℚ` where
numpy produces `nan` with a warning; the claims below never evaluate those
entries. -/
def OTSU_thres (bin_centers : List ℚ) (counts : List ℕ) : Option ℚ :=
  let countsQ := counts.map (fun c => (c : ℚ))
  let weight1 := cumsum countsQ
  let weight2 := (cumsum countsQ.reverse).reverse
  let mean1 := List.zipWith (· / ·)
    (cumsum (List.zipWith (· * ·) countsQ bin_centers)) weight1
  let mean2 := (List.zipWith (· / ·)
    (cumsum ((List.zipWith (· * ·) countsQ bin_centers).reverse))
    weight2.reverse).reverse
  let variance12 := List.zipWith (· * ·)
    (List.zipWith (· * ·) weight1.dropLast (weight2.drop 1))
    (List.zipWith (fun a b => (a - b) ^ 2) mean1.dropLast (mean2.drop 1))
  match npArgmax variance12 with
  | none => none
  | some idx => some (bin_centers.getD idx 0)

/-- `HIST.eval` for the default configuration `method='otsu'`, with the error
paths kept (`none` = the Python call raises): the default bin count is the
IEEE computation `histNbinsFloat`, a zero bin count makes `np.histogram`
raise, and `OTSU_thres` raises on a single bin. -/
def HIST.evalOtsu (s : HIST.State) (decision : List ℚ) :
    Option (HIST.State × List ℕ) :=
  let d := normalize decision
  let nb := s.nbins.getD (histNbinsFloat d.length)
  if nb = 0 then none
  else
    (OTSU_thres (histogram d nb).1 (histogram d nb).2).map (fun threshold =>
      ({ s with nbins := some nb, thresh_ := some threshold },
        d.map (fun x => if threshold < x then (1 : ℕ) else 0)))

/-! ### Basic lemmas about the shared utilities -/

lemma normalize_length (v : List ℚ) : (normalize v).length = v.length := by
  simp [normalize]

lemma cut_length (raw : List ℚ) (limit : ℚ) : (cut raw limit).length = raw.length := by
  simp [cut]

lemma mem_cut {raw : List ℚ} {limit : ℚ} {y : ℕ} (hy : y ∈ cut raw limit) :
    y = 0 ∨ y = 1 := by
  simp only [cut, List.mem_map] at hy
  obtain ⟨x, -, hx⟩ := hy
  by_cases h : limit < x <;> simp [h] at hx <;> omega

lemma le_foldl_max (x : ℚ) (xs : List ℚ) : x ≤ xs.foldl max x := by
  induction xs generalizing x with
  | nil => exact le_refl x
  | cons a xs ih =>
      exact le_trans (le_max_left x a) (ih (max x a))

lemma mem_le_foldl_max {a : ℚ} {xs : List ℚ} (x : ℚ) (ha : a ∈ xs) :
    a ≤ xs.foldl max x := by
  induction xs generalizing x with
  | nil => cases ha
  | cons b xs ih =>
      rcases List.mem_cons.mp ha with h | h
      · subst h
        exact le_trans (le_max_right x a) (le_foldl_max _ _)
      · exact ih (max x b) h

lemma listMax_ge {a : ℚ} {l : List ℚ} (ha : a ∈ l) : a ≤ listMax l := by
  cases l with
  | nil => cases ha
  | cons x xs =>
      rcases List.mem_cons.mp ha with h | h
      · subst h; exact le_foldl_max _ _
      · exact mem_le_foldl_max x h

lemma foldl_min_le (x : ℚ) (xs : List ℚ) : xs.foldl min x ≤ x := by
  induction xs generalizing x with
  | nil => exact le_refl x
  | cons a xs ih =>
      exact le_trans (ih (min x a)) (min_le_left x a)

lemma foldl_min_le_mem {a : ℚ} {xs : List ℚ} (x : ℚ) (ha : a ∈ xs) :
    xs.foldl min x ≤ a := by
  induction xs generalizing x with
  | nil => cases ha
  | cons b xs ih =>
      rcases List.mem_cons.mp ha with h | h
      · subst h
        exact le_trans (foldl_min_le (min x a) xs) (min_le_right x a)
      · exact ih (min x b) h

lemma listMin_le {a : ℚ} {l : List ℚ} (ha : a ∈ l) : listMin l ≤ a := by
  cases l with
  | nil => cases ha
  | cons x xs =>
      rcases List.mem_cons.mp ha with h | h
      · subst h; exact foldl_min_le _ _
      · exact foldl_min_le_mem x h

lemma foldl_min_mem (x : ℚ) (xs : List ℚ) : xs.foldl min x ∈ x :: xs := by
  induction xs generalizing x with
  | nil => simp
  | cons a xs ih =>
      have h := ih (min x a)
      rcases List.mem_cons.mp h with h | h
      · rcases min_choice x a with hc | hc <;> rw [List.foldl_cons, h, hc] <;> simp
      · simp [List.foldl_cons, List.mem_cons.mpr (Or.inr h)]

lemma listMin_mem {l : List ℚ} (h : l ≠ []) : listMin l ∈ l := by
  cases l with
  | nil => exact absurd rfl h
  | cons x xs => exact foldl_min_mem x xs

lemma mem_normalize_le_one {x : ℚ} {v : List ℚ} (hx : x ∈ normalize v) : x ≤ 1 := by
  simp only [normalize, List.mem_map] at hx
  obtain ⟨a, ha, rfl⟩ := hx
  rcases lt_or_le (listMax v - listMin v) 0 with h | h
  · exact absurd (sub_nonneg.mpr (le_trans (listMin_le ha) (listMax_ge ha))) (not_le.mpr h)
  · rcases eq_or_lt_of_le h with h0 | h0
    · rw [← h0, div_zero]; norm_num
    · exact div_le_one_of_le₀ (by linarith [listMax_ge ha]) (le_of_lt h0)

lemma cut_eq_zero_of_le {raw : List ℚ} {limit : ℚ} (h : ∀ x ∈ raw, x ≤ limit) :
    ∀ y ∈ cut raw limit, y = 0 := by
  intro y hy
  simp only [cut, List.mem_map] at hy
  obtain ⟨x, hx, rfl⟩ := hy
  simp [not_lt.mpr (h x hx)]

lemma cut_getD {raw : List ℚ} {limit : ℚ} {i : ℕ} (hi : i < raw.length) :
    (cut raw limit).getD i 0 = if limit < raw.getD i 0 then 1 else 0 := by
  have hi2 : i < (cut raw limit).length := by rw [cut_length]; exact hi
  rw [List.getD_eq_getElem _ _ hi2, List.getD_eq_getElem _ _ hi]
  simp [cut]

/-! ### The AUCP scan with sklearn's raising `auc` -/

lemma aucChecked_eq_auc {x y : List ℚ} (h : 2 ≤ x.length) :
    aucChecked x y = some (auc x y) := by
  simp only [aucChecked, if_neg (by omega : ¬ x.length < 2)]

lemma aucChecked_eq_some {x y : List ℚ} {t : ℚ} (h : aucChecked x y = some t) :
    t = auc x y := by
  simp only [aucChecked] at h
  split at h
  · exact absurd h (by simp)
  · exact (Option.some_inj.mp h).symm

lemma aucpScanChecked_eq_first {b : ℚ} {g v : List ℚ} {i : ℕ}
    (hlen : v.length = g.length) (hi : i + 1 < g.length)
    (hP : auc (g.drop i) (v.drop i) < b)
    (hmin : ∀ j, j < i → ¬ auc (g.drop j) (v.drop j) < b) :
    aucpScanChecked b g v = some (g.getD i 0) := by
  induction g generalizing v i with
  | nil => simp at hi
  | cons a gs ih =>
      cases v with
      | nil => simp at hlen
      | cons x vs =>
          have h2 : 2 ≤ (a :: gs).length := by
            simp only [List.length_cons] at hi ⊢
            omega
          rw [aucpScanChecked, aucChecked_eq_auc h2, Option.some_bind]
          cases i with
          | zero =>
              simp only [List.drop_zero] at hP
              rw [if_pos hP]
              rfl
          | succ j =>
              have h0 := hmin 0 (Nat.succ_pos j)
              simp only [List.drop_zero] at h0
              rw [if_neg h0]
              have hgoal : aucpScanChecked b gs vs = some (gs.getD j 0) := by
                refine ih (by simpa using hlen) (by simpa using hi)
                  (by simpa using hP) (fun k hk => ?_)
                have := hmin (k + 1) (Nat.succ_lt_succ hk)
                simpa using this
              simpa using hgoal

lemma aucpScanChecked_eq_none {b : ℚ} {g v : List ℚ}
    (hlen : v.length = g.length) (hne : g ≠ [])
    (hno : ∀ i, i + 1 < g.length → ¬ auc (g.drop i) (v.drop i) < b) :
    aucpScanChecked b g v = none := by
  induction g generalizing v with
  | nil => exact absurd rfl hne
  | cons a gs ih =>
      cases v with
      | nil => simp at hlen
      | cons x vs =>
          cases gs with
          | nil =>
              rw [aucpScanChecked]
              simp [aucChecked]
          | cons a2 gs2 =>
              rw [aucpScanChecked, aucChecked_eq_auc (by simp), Option.some_bind]
              have h0 := hno 0 (by simp)
              simp only [List.drop_zero] at h0
              rw [if_neg h0]
              refine ih (by simpa using hlen) (by simp) (fun i hi => ?_)
              have := hno (i + 1) (by simp only [List.length_cons] at hi ⊢; omega)
              simpa using this

lemma aucpScanChecked_some_imp {b : ℚ} :
    ∀ {g v : List ℚ} {l : ℚ}, aucpScanChecked b g v = some l → aucpScan b g v = l := by
  intro g
  induction g with
  | nil =>
      intro v l h
      cases v <;> exact Option.some_inj.mp h
  | cons a gs ih =>
      intro v l h
      cases v with
      | nil => exact Option.some_inj.mp h
      | cons x vs =>
          rw [aucpScanChecked] at h
          rcases h1 : aucChecked (a :: gs) (x :: vs) with _ | t
          · rw [h1, Option.none_bind] at h
            exact absurd h (by simp)
          · rw [h1, Option.some_bind] at h
            have ht := aucChecked_eq_some h1
            subst ht
            rw [aucpScan]
            split at h
            · next hlt => rw [if_pos hlt]; exact Option.some_inj.mp h
            · next hlt => rw [if_neg hlt]; exact ih h

/-! ### First two elements surviving a filter over `List.range` -/

lemma filter_range_eq_nil {p : ℕ → Bool} {m : ℕ}
    (h : ∀ j, j < m → p j = false) : (List.range m).filter p = [] := by
  refine List.filter_eq_nil_iff.mpr (fun j hj => ?_)
  simp [h j (List.mem_range.mp hj)]

lemma filter_range_singleton {p : ℕ → Bool} {m i0 : ℕ} (h0m : i0 < m)
    (hp0 : p i0 = true) (hmin : ∀ j, j < m → j ≠ i0 → p j = false) :
    (List.range m).filter p = [i0] := by
  obtain ⟨t, rfl⟩ : ∃ t, m = (i0 + 1) + t := ⟨m - (i0 + 1), by omega⟩
  rw [List.range_add, List.filter_append, List.range_succ, List.filter_append]
  have h1 : (List.range i0).filter p = [] :=
    filter_range_eq_nil (fun j hj => hmin j (by omega) (by omega))
  have h2 : (List.filter p [i0]) = [i0] := by simp [hp0]
  have h3 : ((List.range t).map (fun x => i0 + 1 + x)).filter p = [] := by
    refine List.filter_eq_nil_iff.mpr (fun j hj => ?_)
    simp only [List.mem_map, List.mem_range] at hj
    obtain ⟨x, hx, rfl⟩ := hj
    simp [hmin (i0 + 1 + x) (by omega) (by omega)]
  rw [h1, h2, h3]
  rfl

lemma filter_range_first_two {p : ℕ → Bool} {m i0 i1 : ℕ} (h01 : i0 < i1)
    (h1m : i1 < m) (hp0 : p i0 = true) (hp1 : p i1 = true)
    (hmin : ∀ j, j < i1 → j ≠ i0 → p j = false) :
    ∃ rest, (List.range m).filter p = i0 :: i1 :: rest := by
  obtain ⟨t, rfl⟩ : ∃ t, m = (i1 + 1) + t := ⟨m - (i1 + 1), by omega⟩
  rw [List.range_add, List.filter_append, List.range_succ, List.filter_append]
  have h1 : (List.range i1).filter p = [i0] :=
    filter_range_singleton h01 hp0 (fun j hj hne => hmin j hj hne)
  have h2 : (List.filter p [i1]) = [i1] := by simp [hp1]
  rw [h1, h2]
  exact ⟨_, rfl⟩

/-! ### Stepping the MCST fold one sample at a time -/

lemma foldl_take_succ {α β : Type} (f : β → α → β) (a : β) (l : List α) (d : α)
    {k : ℕ} (hk : k < l.length) :
    (l.take (k + 1)).foldl f a = f ((l.take k).foldl f a) (l.getD k d) := by
  rw [List.take_succ, List.getElem?_eq_getElem hk, List.foldl_append,
    List.getD_eq_getElem _ _ hk]
  rfl

lemma foldl_max_mem (x : ℚ) (xs : List ℚ) : xs.foldl max x ∈ x :: xs := by
  induction xs generalizing x with
  | nil => simp
  | cons a xs ih =>
      have h := ih (max x a)
      rcases List.mem_cons.mp h with h | h
      · rcases max_choice x a with hc | hc <;> rw [List.foldl_cons, h, hc] <;> simp
      · simp [List.foldl_cons, List.mem_cons.mpr (Or.inr h)]

lemma listMax_mem {l : List ℚ} (h : l ≠ []) : listMax l ∈ l := by
  cases l with
  | nil => exact absurd rfl h
  | cons x xs => exact foldl_max_mem x xs

/-! ### Named components of the individual `eval` bodies.

Each definition below names one of the local variables of the corresponding
Python `eval` (the normalized grid, the KDE/CDF values, the area bound, the
derivative vector, the Monte-Carlo accumulator, the histogram bin count);
the `eval_` lemmas record, definitionally, that `eval` is assembled from
them. -/

def aucpGrid (decision : List ℚ) : List ℚ :=
  linspace 0 1 ((normalize decision).length * 2)

def aucpVal (density : List ℚ → ℚ → ℚ) (decision : List ℚ) : List ℚ :=
  normalize ((gen_kde density (normalize decision) 0 1
    ((normalize decision).length * 2)).1)

def aucpBound (density : List ℚ → ℚ → ℚ) (decision : List ℚ) : ℚ :=
  (median (normalize decision) +
      |median (normalize decision) - mean (normalize decision)|) *
    auc (aucpGrid decision) (aucpVal density decision)

lemma aucp_eval_eq (density : List ℚ → ℚ → ℚ) (s : AUCP.State) (decision : List ℚ) :
    AUCP.eval density s decision =
      ({ thresh_ := some (aucpScan (aucpBound density decision)
          (aucpGrid decision) (aucpVal density decision)) },
        cut (normalize decision) (aucpScan (aucpBound density decision)
          (aucpGrid decision) (aucpVal density decision))) := rfl

lemma aucpVal_length (density : List ℚ → ℚ → ℚ) (decision : List ℚ) :
    (aucpVal density decision).length = (aucpGrid decision).length := by
  simp [aucpVal, aucpGrid, gen_kde, normalize]

lemma aucpGrid_length (decision : List ℚ) :
    (aucpGrid decision).length = decision.length * 2 := by
  rw [aucpGrid, linspace, List.length_map, List.length_range, normalize_length]

lemma aucp_evalChecked_eq (density : List ℚ → ℚ → ℚ) (s : AUCP.State)
    (decision : List ℚ) :
    AUCP.evalChecked density s decision =
      (aucChecked (aucpGrid decision) (aucpVal density decision)).bind
        (fun tot_area =>
          (aucpScanChecked ((median (normalize decision) +
              |median (normalize decision) - mean (normalize decision)|) * tot_area)
            (aucpGrid decision) (aucpVal density decision)).map (fun limit =>
              ({ thresh_ := some limit }, cut (normalize decision) limit))) := rfl

lemma aucp_evalChecked_some_shape {density : List ℚ → ℚ → ℚ} {s : AUCP.State}
    {decision : List ℚ} {st : AUCP.State} {labels : List ℕ}
    (h : AUCP.evalChecked density s decision = some (st, labels)) :
    ∃ limit, aucpScanChecked (aucpBound density decision) (aucpGrid decision)
        (aucpVal density decision) = some limit ∧
      st = { thresh_ := some limit } ∧ labels = cut (normalize decision) limit := by
  rw [aucp_evalChecked_eq] at h
  rcases h1 : aucChecked (aucpGrid decision) (aucpVal density decision) with _ | tot
  · rw [h1, Option.none_bind] at h
    exact absurd h (by simp)
  · rw [h1, Option.some_bind, Option.map_eq_some'] at h
    obtain ⟨limit, hscan, hpair⟩ := h
    have htot := aucChecked_eq_some h1
    subst htot
    simp only [Prod.mk.injEq] at hpair
    exact ⟨limit, hscan, hpair.1.symm, hpair.2.symm⟩

def fgdGrid (decision : List ℚ) : List ℚ :=
  linspace 0 1 ((normalize decision).length * 3)

def fgdDeriv (density : List ℚ → ℚ → ℚ) (decision : List ℚ) : List ℚ :=
  npGradient ((gen_kde density (normalize decision) 0 1
      ((normalize decision).length * 3)).1)
    ((fgdGrid decision).getD 1 0 - (fgdGrid decision).getD 0 0)

def fgdLimit (density : List ℚ → ℚ → ℚ) (decision : List ℚ) : ℚ :=
  match fgdInds (fgdDeriv density decision) with
  | i0 :: i1 :: _ => ((fgdGrid decision).getD i0 0 + (fgdGrid decision).getD i1 0) / 2
  | _ => 1.1

lemma fgd_eval_eq (density : List ℚ → ℚ → ℚ) (s : FGD.State) (decision : List ℚ) :
    FGD.eval density s decision =
      ({ thresh_ := some (fgdLimit density decision) },
        cut (normalize decision) (fgdLimit density decision)) := rfl

/-- The positive-to-nonpositive transition tested by the loop in `FGD.eval`
at index `i` of the derivative vector. -/
def fgdP (density : List ℚ → ℚ → ℚ) (decision : List ℚ) (i : ℕ) : Prop :=
  i + 1 < (fgdDeriv density decision).length ∧
    0 < (fgdDeriv density decision).getD i 0 ∧
    (fgdDeriv density decision).getD (i + 1) 0 ≤ 0

instance (density : List ℚ → ℚ → ℚ) (decision : List ℚ) (i : ℕ) :
    Decidable (fgdP density decision i) :=
  inferInstanceAs (Decidable (i + 1 < (fgdDeriv density decision).length ∧
    0 < (fgdDeriv density decision).getD i 0 ∧
    (fgdDeriv density decision).getD (i + 1) 0 ≤ 0))

def decompVal (cdfEst : List ℚ → ℚ → ℚ) (decision : List ℚ) : List ℚ :=
  normalize ((gen_cdf cdfEst (normalize decision) 0 1
    ((normalize decision).length * 3)).1)

def decompLimit (cdfEst : List ℚ → ℚ → ℚ) (s : DECOMP.State) (decision : List ℚ) : ℚ :=
  if (0.5 : ℚ) < listMax (s.decomp (decompVal cdfEst decision))
  then 1 - listMax (s.decomp (decompVal cdfEst decision))
  else listMax (s.decomp (decompVal cdfEst decision))

lemma decomp_eval_eq (cdfEst : List ℚ → ℚ → ℚ) (s : DECOMP.State) (decision : List ℚ) :
    DECOMP.eval cdfEst s decision =
      ({ s with thresh_ := some (decompLimit cdfEst s decision) },
        cut (normalize decision) (decompLimit cdfEst s decision)) := rfl

def mcstRnd (rvs : ℕ → ℕ → List ℚ) (s : MCST.State) (decision : List ℚ) : List ℚ :=
  normalize (rvs (normalize decision).length s.random_state)

/-- The Monte-Carlo accumulator `(p_std, povr)` of `MCST.eval` after the
first `k` samples have been processed. -/
def mcstRun (shapiro : List ℚ → ℚ) (rvs : ℕ → ℕ → List ℚ) (s : MCST.State)
    (decision : List ℚ) (k : ℕ) : ℚ × List ℚ :=
  ((mcstRnd rvs s decision).take k).foldl
    (shapiroStep shapiro (normalize decision)) (shapiro (normalize decision), [])

def mcstPovr (shapiro : List ℚ → ℚ) (rvs : ℕ → ℕ → List ℚ) (s : MCST.State)
    (decision : List ℚ) : List ℚ :=
  (mcstRun shapiro rvs s decision (mcstRnd rvs s decision).length).2

lemma MCST.eval_thresh (shapiro : List ℚ → ℚ) (rvs : ℕ → ℕ → List ℚ)
    (s : MCST.State) (decision : List ℚ) :
    (MCST.eval shapiro rvs s decision).1.thresh_ =
      some (if mcstPovr shapiro rvs s decision = [] then 1.1
            else listMin (mcstPovr shapiro rvs s decision)) := by
  simp only [MCST.eval, mcstPovr, mcstRun, mcstRnd, List.take_length]

lemma MCST.eval_labels (shapiro : List ℚ → ℚ) (rvs : ℕ → ℕ → List ℚ)
    (s : MCST.State) (decision : List ℚ) :
    (MCST.eval shapiro rvs s decision).2 =
      cut (normalize decision)
        (if mcstPovr shapiro rvs s decision = [] then 1.1
         else listMin (mcstPovr shapiro rvs s decision)) := by
  simp only [MCST.eval, mcstPovr, mcstRun, mcstRnd, List.take_length]

/-- The bin count `HIST.eval` uses: the stored `nbins` when present, else
the default `int(len(decision)*0.7)` in exact rational arithmetic.  The
exact floor agrees with the program's IEEE double evaluation for every
length `n ≤ 89`; the first divergence is `n = 90` — see `histNbinsFloat`. -/
def histNb (s : HIST.State) (decision : List ℚ) : ℕ :=
  s.nbins.getD ⌊(0.7 : ℚ) * (((normalize decision).length : ℕ) : ℚ)⌋₊

def histLimit (s : HIST.State) (decision : List ℚ) : ℚ :=
  s.threshFn (normalize decision)
    (histogram (normalize decision) (histNb s decision)).1
    (histogram (normalize decision) (histNb s decision)).2

lemma hist_eval_eq (s : HIST.State) (decision : List ℚ) :
    HIST.eval s decision =
      ({ s with
          nbins := some (histNb s decision)
          thresh_ := some (histLimit s decision) },
        cut (normalize decision) (histLimit s decision)) := rfl

lemma cut_getD_eq_one_iff {raw : List ℚ} {limit : ℚ} {i : ℕ} (hi : i < raw.length) :
    ((cut raw limit).getD i 0 = 1 ↔ limit < raw.getD i 0) := by
  rw [cut_getD hi]
  by_cases h : limit < raw.getD i 0 <;> simp [h]

lemma hist_evalOtsu_some_shape {s : HIST.State} {decision : List ℚ}
    {st : HIST.State} {labels : List ℕ}
    (h : HIST.evalOtsu s decision = some (st, labels)) :
    ∃ nb t, st = { s with nbins := some nb, thresh_ := some t } ∧
      labels = (normalize decision).map (fun x => if t < x then (1 : ℕ) else 0) := by
  simp only [HIST.evalOtsu] at h
  split at h
  · exact absurd h (by simp)
  · rw [Option.map_eq_some'] at h
    obtain ⟨t, -, hpair⟩ := h
    simp only [Prod.mk.injEq] at hpair
    exact ⟨_, t, hpair.1.symm, hpair.2.symm⟩

/-- C1 counterexample: the claim asserts that `eval` returns a well-formed
label vector for every strategy and every valid non-empty input, but `HIST`
with its default configuration (`method='otsu'`, `nbins=None`) raises on the
valid input `[0, 1]`: the default bin count is `int(2*0.7) = 1`, and with a
single bin `OTSU_thres` takes `np.argmax` of an empty inter-class variance
array; on the valid input `[5]` (length 1) the default bin count is 0 and
`np.histogram` raises.  `none` models the Python `ValueError`. -/
theorem claim1_counterexample :
    HIST.evalOtsu ⟨fun _ _ _ => 0, none, none⟩ [0, 1] = none ∧
    HIST.evalOtsu ⟨fun _ _ _ => 0, none, none⟩ [5] = none := by
  constructor
  · have hd : normalize [0, 1] = [0, 1] := by
      norm_num [normalize, listMin, listMax, min_def, max_def]
    have hnb : histNbinsFloat 2 = 1 := by decide
    have hh : histogram [0, 1] 1 = ([1/2], [2]) := by
      norm_num [histogram, linspace, List.range_succ, List.countP_cons,
        List.countP_nil, Bool.and_eq_true, decide_eq_true_eq]
    have ho : OTSU_thres [1/2] [2] = none := by
      norm_num [OTSU_thres, cumsum, npArgmax, List.scanl]
    rw [HIST.evalOtsu]
    simp only [hd, List.length_cons, List.length_nil, Option.getD_none, hnb, hh, ho]
    norm_num
  · have hd : normalize [5] = [0] := by
      norm_num [normalize, listMin, listMax, min_def, max_def]
    have hnb : histNbinsFloat 1 = 0 := by decide
    rw [HIST.evalOtsu]
    simp [hd, hnb]

/-- C1, amended: for AUCP — whenever its area scan returns rather than
raising inside sklearn `auc` — and unconditionally for DECOMP, FGD and MCST
(their external numeric routines modelled as total functions; scipy's own
input restrictions, such as Shapiro-Wilk needing at least 3 samples, lie
outside the embedded code), `eval` returns a label vector of the input
length with every element 0 or 1, and `thresh_` is set to a non-null
scalar.  For HIST the same holds for every call that returns, but HIST can
raise on valid non-empty inputs: with the default otsu method and default
bin count it raises at n = 2 and n = 1 (see `claim1_counterexample`). -/
theorem claim1_amended (density cdfEst : List ℚ → ℚ → ℚ)
    (shapiro : List ℚ → ℚ) (rvs : ℕ → ℕ → List ℚ) (sa : AUCP.State)
    (sf : FGD.State) (sd : DECOMP.State) (sm : MCST.State) (sh : HIST.State)
    (decision : List ℚ) :
    (∀ st labels, AUCP.evalChecked density sa decision = some (st, labels) →
      labels.length = decision.length ∧ (∀ y ∈ labels, y = 0 ∨ y = 1) ∧
      st.thresh_.isSome = true) ∧
    (∀ st labels, HIST.evalOtsu sh decision = some (st, labels) →
      labels.length = decision.length ∧ (∀ y ∈ labels, y = 0 ∨ y = 1) ∧
      st.thresh_.isSome = true) ∧
    ((DECOMP.eval cdfEst sd decision).2.length = decision.length ∧
      (∀ y ∈ (DECOMP.eval cdfEst sd decision).2, y = 0 ∨ y = 1) ∧
      (DECOMP.eval cdfEst sd decision).1.thresh_.isSome = true) ∧
    ((FGD.eval density sf decision).2.length = decision.length ∧
      (∀ y ∈ (FGD.eval density sf decision).2, y = 0 ∨ y = 1) ∧
      (FGD.eval density sf decision).1.thresh_.isSome = true) ∧
    ((MCST.eval shapiro rvs sm decision).2.length = decision.length ∧
      (∀ y ∈ (MCST.eval shapiro rvs sm decision).2, y = 0 ∨ y = 1) ∧
      (MCST.eval shapiro rvs sm decision).1.thresh_.isSome = true) := by
  refine ⟨?_, ?_, ⟨?_, ?_, rfl⟩, ⟨?_, ?_, rfl⟩, ⟨?_, ?_, ?_⟩⟩
  · intro st labels h
    obtain ⟨limit, -, hst, hlab⟩ := aucp_evalChecked_some_shape h
    subst hst
    subst hlab
    exact ⟨(cut_length _ _).trans (normalize_length _),
      fun y hy => mem_cut hy, rfl⟩
  · intro st labels h
    obtain ⟨nb, t, hst, hlab⟩ := hist_evalOtsu_some_shape h
    subst hst
    subst hlab
    refine ⟨by simp [normalize_length], fun y hy => ?_, rfl⟩
    simp only [List.mem_map] at hy
    obtain ⟨x, -, hx⟩ := hy
    by_cases hc : t < x <;> simp [hc] at hx <;> omega
  · rw [decomp_eval_eq]; exact (cut_length _ _).trans (normalize_length _)
  · rw [decomp_eval_eq]; exact fun y hy => mem_cut hy
  · rw [fgd_eval_eq]; exact (cut_length _ _).trans (normalize_length _)
  · rw [fgd_eval_eq]; exact fun y hy => mem_cut hy
  · rw [MCST.eval_labels]; exact (cut_length _ _).trans (normalize_length _)
  · rw [MCST.eval_labels]; exact fun y hy => mem_cut hy
  · rw [MCST.eval_thresh]; rfl

/-- Witness for C1 (amended) at the length-3 input `[0, 1/2, 1]`, where both
the checked AUCP pipeline (density concentrated at 0) and the default-otsu
HIST pipeline genuinely return. -/
theorem claim1_amended_witness :
    (([0, 1, 1] : List ℕ).length = ([0, 1/2, 1] : List ℚ).length ∧
      (∀ y ∈ ([0, 1, 1] : List ℕ), y = 0 ∨ y = 1) ∧
      ({ thresh_ := some (1/5) } : AUCP.State).thresh_.isSome = true) ∧
    (([0, 1, 1] : List ℕ).length = ([0, 1/2, 1] : List ℚ).length ∧
      (∀ y ∈ ([0, 1, 1] : List ℕ), y = 0 ∨ y = 1) ∧
      ({ threshFn := fun _ _ _ => 0, nbins := some 2, thresh_ := some (1/4) } :
        HIST.State).thresh_.isSome = true) ∧
    ((DECOMP.eval (fun _ x => x) ⟨fun l => l, none⟩ [0, 1/2, 1]).2.length =
        ([0, 1/2, 1] : List ℚ).length ∧
      (∀ y ∈ (DECOMP.eval (fun _ x => x) ⟨fun l => l, none⟩ [0, 1/2, 1]).2,
        y = 0 ∨ y = 1) ∧
      (DECOMP.eval (fun _ x => x) ⟨fun l => l, none⟩ [0, 1/2, 1]).1.thresh_.isSome =
        true) ∧
    ((FGD.eval (fun _ x => if x = 0 then (1 : ℚ) else 0) ⟨none⟩
        [0, 1/2, 1]).2.length = ([0, 1/2, 1] : List ℚ).length ∧
      (∀ y ∈ (FGD.eval (fun _ x => if x = 0 then (1 : ℚ) else 0) ⟨none⟩
        [0, 1/2, 1]).2, y = 0 ∨ y = 1) ∧
      (FGD.eval (fun _ x => if x = 0 then (1 : ℚ) else 0) ⟨none⟩
        [0, 1/2, 1]).1.thresh_.isSome = true) ∧
    ((MCST.eval (fun l => (l.length : ℚ)) (fun size _ => List.replicate size (1/2))
        ⟨1234, none⟩ [0, 1/2, 1]).2.length = ([0, 1/2, 1] : List ℚ).length ∧
      (∀ y ∈ (MCST.eval (fun l => (l.length : ℚ))
        (fun size _ => List.replicate size (1/2)) ⟨1234, none⟩ [0, 1/2, 1]).2,
        y = 0 ∨ y = 1) ∧
      (MCST.eval (fun l => (l.length : ℚ)) (fun size _ => List.replicate size (1/2))
        ⟨1234, none⟩ [0, 1/2, 1]).1.thresh_.isSome = true) := by
  have h := claim1_amended (fun _ x => if x = 0 then (1 : ℚ) else 0) (fun _ x => x)
    (fun l => (l.length : ℚ)) (fun size _ => List.replicate size (1/2))
    ⟨none⟩ ⟨none⟩ ⟨fun l => l, none⟩ ⟨1234, none⟩ ⟨fun _ _ _ => 0, none, none⟩
    [0, 1/2, 1]
  have hd : normalize [0, 1/2, 1] = [0, 1/2, 1] := by
    norm_num [normalize, listMin, listMax, min_def, max_def]
  have hAucp : AUCP.evalChecked (fun _ x => if x = 0 then (1 : ℚ) else 0) ⟨none⟩
      [0, 1/2, 1] = some (⟨some (1/5)⟩, [0, 1, 1]) := by
    rw [AUCP.evalChecked]
    simp only [hd]
    norm_num [gen_kde, linspace, List.range_succ, normalize, listMin, listMax,
      min_def, max_def, aucChecked, auc, aucpScanChecked, median, mean,
      List.insertionSort, List.orderedInsert, cut]
  have hHist : HIST.evalOtsu ⟨fun _ _ _ => 0, none, none⟩ [0, 1/2, 1] =
      some (⟨fun _ _ _ => 0, some 2, some (1/4)⟩, [0, 1, 1]) := by
    have hnb : histNbinsFloat 3 = 2 := by decide
    have hh : histogram [0, 1/2, 1] 2 = ([1/4, 3/4], [1, 2]) := by
      norm_num [histogram, linspace, List.range_succ, List.countP_cons,
        List.countP_nil, Bool.and_eq_true, decide_eq_true_eq]
    have ho : OTSU_thres [1/4, 3/4] [1, 2] = some (1/4) := by
      norm_num [OTSU_thres, cumsum, npArgmax, argmaxAux, List.scanl]
    rw [HIST.evalOtsu]
    simp only [hd, List.length_cons, List.length_nil, Option.getD_none, hnb, hh, ho]
    norm_num
  exact ⟨h.1 _ _ hAucp, h.2.1 _ _ hHist, h.2.2.1, h.2.2.2.1, h.2.2.2.2⟩

/-- C2: For every strategy and every valid input, the returned label at
position i is 1 if and only if the normalized score at position i strictly
exceeds the retained threshold `thresh_`; in particular HIST compares the
normalized vector directly against the bin-center threshold with a strict
greater-than. -/
theorem claim2_label_iff_exceeds (density cdfEst : List ℚ → ℚ → ℚ)
    (shapiro : List ℚ → ℚ) (rvs : ℕ → ℕ → List ℚ) (sa : AUCP.State)
    (sf : FGD.State) (sd : DECOMP.State) (sm : MCST.State) (sh : HIST.State)
    (decision : List ℚ) (i : ℕ) (hi : i < decision.length) :
    ((AUCP.eval density sa decision).2.getD i 0 = 1 ↔
      (AUCP.eval density sa decision).1.thresh_.getD 0 < (normalize decision).getD i 0) ∧
    ((DECOMP.eval cdfEst sd decision).2.getD i 0 = 1 ↔
      (DECOMP.eval cdfEst sd decision).1.thresh_.getD 0 < (normalize decision).getD i 0) ∧
    ((FGD.eval density sf decision).2.getD i 0 = 1 ↔
      (FGD.eval density sf decision).1.thresh_.getD 0 < (normalize decision).getD i 0) ∧
    ((HIST.eval sh decision).2.getD i 0 = 1 ↔
      (HIST.eval sh decision).1.thresh_.getD 0 < (normalize decision).getD i 0) ∧
    ((MCST.eval shapiro rvs sm decision).2.getD i 0 = 1 ↔
      (MCST.eval shapiro rvs sm decision).1.thresh_.getD 0 < (normalize decision).getD i 0) := by
  have hi2 : i < (normalize decision).length := by rw [normalize_length]; exact hi
  refine ⟨?_, ?_, ?_, ?_, ?_⟩
  · rw [aucp_eval_eq]; exact cut_getD_eq_one_iff hi2
  · rw [decomp_eval_eq]; exact cut_getD_eq_one_iff hi2
  · rw [fgd_eval_eq]; exact cut_getD_eq_one_iff hi2
  · rw [hist_eval_eq]; exact cut_getD_eq_one_iff hi2
  · rw [MCST.eval_labels, MCST.eval_thresh]; exact cut_getD_eq_one_iff hi2

/-- Witness for C2 at the concrete input `[0, 1]`, position 1. -/
theorem claim2_witness :
    ((AUCP.eval (fun _ _ => 1) ⟨none⟩ [0, 1]).2.getD 1 0 = 1 ↔
      (AUCP.eval (fun _ _ => 1) ⟨none⟩ [0, 1]).1.thresh_.getD 0 <
        (normalize [0, 1]).getD 1 0) ∧
    ((DECOMP.eval (fun _ x => x) ⟨fun l => l, none⟩ [0, 1]).2.getD 1 0 = 1 ↔
      (DECOMP.eval (fun _ x => x) ⟨fun l => l, none⟩ [0, 1]).1.thresh_.getD 0 <
        (normalize [0, 1]).getD 1 0) ∧
    ((FGD.eval (fun _ _ => 1) ⟨none⟩ [0, 1]).2.getD 1 0 = 1 ↔
      (FGD.eval (fun _ _ => 1) ⟨none⟩ [0, 1]).1.thresh_.getD 0 <
        (normalize [0, 1]).getD 1 0) ∧
    ((HIST.eval ⟨fun _ _ _ => 1/2, none, none⟩ [0, 1]).2.getD 1 0 = 1 ↔
      (HIST.eval ⟨fun _ _ _ => 1/2, none, none⟩ [0, 1]).1.thresh_.getD 0 <
        (normalize [0, 1]).getD 1 0) ∧
    ((MCST.eval (fun l => (l.length : ℚ)) (fun size _ => List.replicate size (1/2))
        ⟨1234, none⟩ [0, 1]).2.getD 1 0 = 1 ↔
      (MCST.eval (fun l => (l.length : ℚ)) (fun size _ => List.replicate size (1/2))
        ⟨1234, none⟩ [0, 1]).1.thresh_.getD 0 < (normalize [0, 1]).getD 1 0) :=
  claim2_label_iff_exceeds (fun _ _ => 1) (fun _ x => x) (fun l => (l.length : ℚ))
    (fun size _ => List.replicate size (1/2)) ⟨none⟩ ⟨none⟩ ⟨fun l => l, none⟩
    ⟨1234, none⟩ ⟨fun _ _ _ => 1/2, none, none⟩ [0, 1] 1 (by decide)

/-- C10: After every `DECOMP.eval` call that returns, the retained threshold
`thresh_` is at most 0.5: a raw decomposition maximum not exceeding 0.5 is
kept, and any raw maximum strictly greater than 0.5 is replaced by 1 minus
itself, which is strictly less than 0.5. -/
theorem claim10_decomp_thresh_le_half (cdfEst : List ℚ → ℚ → ℚ)
    (s : DECOMP.State) (decision : List ℚ) :
    ∃ t, (DECOMP.eval cdfEst s decision).1.thresh_ = some t ∧ t ≤ 0.5 ∧
      ((0.5 : ℚ) < listMax (s.decomp (decompVal cdfEst decision)) → t < 0.5) := by
  refine ⟨decompLimit cdfEst s decision, by rw [decomp_eval_eq], ?_, ?_⟩
  · rw [decompLimit]
    by_cases h : (0.5 : ℚ) < listMax (s.decomp (decompVal cdfEst decision)) <;>
      simp only [h, if_true, if_false, if_pos, if_neg, not_false_iff] <;> linarith
  · intro h
    rw [decompLimit, if_pos h]
    linarith

/-- C4 counterexample: the claim says that when no grid index crosses the
area bound, `thresh_` is set to the default 1, yielding no outliers.  On the
input `[0, 1]` with a flat density no index crosses (the total model
`aucpScan` would indeed return the default 1), but the faithful checked
model shows the program raises instead: the loop's final iteration hands a
single-point suffix to sklearn `auc`, which raises before the comparison. -/
theorem claim4_counterexample :
    AUCP.evalChecked (fun _ _ => 1) ⟨none⟩ [0, 1] = none ∧
    aucpScan (aucpBound (fun _ _ => 1) [0, 1]) (aucpGrid [0, 1])
      (aucpVal (fun _ _ => 1) [0, 1]) = 1 := by
  constructor
  · have hd : normalize [0, 1] = [0, 1] := by
      norm_num [normalize, listMin, listMax, min_def, max_def]
    rw [AUCP.evalChecked]
    simp only [hd]
    norm_num [gen_kde, linspace, List.range_succ, normalize, listMin, listMax,
      min_def, max_def, aucChecked, auc, aucpScanChecked, median, mean,
      List.insertionSort, List.orderedInsert]
  · norm_num [aucpScan, aucpBound, aucpGrid, aucpVal, gen_kde, linspace,
      List.range_succ, normalize, listMin, listMax, min_def, max_def, auc,
      median, mean, List.insertionSort, List.orderedInsert]

/-- C4, amended: `AUCP.eval` sets `thresh_` to the value at the first grid
index i — necessarily leaving at least two grid points, i.e. i + 1 < 2n — at
which the trapezoidal area of the normalized KDE values from i to the end is
strictly less than `percentage × total area`, where
`percentage = median(normalized scores) + |median − mean(normalized scores)|`.
If no such index exists, `eval` does not return: the loop's final iteration
calls sklearn `auc` on a single-point suffix, which raises `ValueError`, so
the `limit = 1` no-outlier default is unreachable for non-empty input.
Whenever the checked model does return, it agrees with the total model
`AUCP.eval`. -/
theorem claim4_amended (density : List ℚ → ℚ → ℚ) (s : AUCP.State)
    (decision : List ℚ) :
    (∀ i, i + 1 < (aucpGrid decision).length →
      auc ((aucpGrid decision).drop i) ((aucpVal density decision).drop i) <
        aucpBound density decision →
      (∀ j, j < i →
        ¬ auc ((aucpGrid decision).drop j) ((aucpVal density decision).drop j) <
          aucpBound density decision) →
      AUCP.evalChecked density s decision =
        some ({ thresh_ := some ((aucpGrid decision).getD i 0) },
          cut (normalize decision) ((aucpGrid decision).getD i 0))) ∧
    (decision ≠ [] →
      (∀ i, i + 1 < (aucpGrid decision).length →
        ¬ auc ((aucpGrid decision).drop i) ((aucpVal density decision).drop i) <
          aucpBound density decision) →
      AUCP.evalChecked density s decision = none) ∧
    (∀ r, AUCP.evalChecked density s decision = some r →
      r = AUCP.eval density s decision) := by
  refine ⟨?_, ?_, ?_⟩
  · intro i hi hP hmin
    have h2 : 2 ≤ (aucpGrid decision).length := by omega
    rw [aucp_evalChecked_eq, aucChecked_eq_auc h2, Option.some_bind]
    have hscan : aucpScanChecked (aucpBound density decision) (aucpGrid decision)
        (aucpVal density decision) = some ((aucpGrid decision).getD i 0) :=
      aucpScanChecked_eq_first (aucpVal_length density decision) hi hP hmin
    rw [show (median (normalize decision) +
        |median (normalize decision) - mean (normalize decision)|) *
        auc (aucpGrid decision) (aucpVal density decision) =
        aucpBound density decision from rfl, hscan]
    rfl
  · intro hne hno
    have h2 : 2 ≤ (aucpGrid decision).length := by
      rw [aucpGrid_length]
      have : decision.length ≠ 0 := fun hc => hne (List.eq_nil_of_length_eq_zero hc)
      omega
    rw [aucp_evalChecked_eq, aucChecked_eq_auc h2, Option.some_bind]
    have hscan : aucpScanChecked (aucpBound density decision) (aucpGrid decision)
        (aucpVal density decision) = none :=
      aucpScanChecked_eq_none (aucpVal_length density decision)
        (fun hc => by rw [hc] at h2; simp at h2) hno
    rw [show (median (normalize decision) +
        |median (normalize decision) - mean (normalize decision)|) *
        auc (aucpGrid decision) (aucpVal density decision) =
        aucpBound density decision from rfl, hscan]
    rfl
  · intro r h
    obtain ⟨st, labels⟩ := r
    obtain ⟨limit, hscan, hst, hlab⟩ := aucp_evalChecked_some_shape h
    have hlim := aucpScanChecked_some_imp hscan
    rw [aucp_eval_eq, hlim, hst, hlab]

/-- Witness for C4 (amended): with the density concentrated at 0, the scan
on `[0, 1]` crosses at index 1 and the checked model returns the grid value
there; with a flat density no index crosses and the checked model raises. -/
theorem claim4_amended_witness :
    AUCP.evalChecked (fun _ x => if x = 0 then (1 : ℚ) else 0) ⟨none⟩ [0, 1] =
      some ({ thresh_ := some ((aucpGrid [0, 1]).getD 1 0) },
        cut (normalize [0, 1]) ((aucpGrid [0, 1]).getD 1 0)) ∧
    AUCP.evalChecked (fun _ _ => 1) ⟨none⟩ [0, 1] = none := by
  have hg : aucpGrid [0, 1] = [0, 1/3, 2/3, 1] := by
    norm_num [aucpGrid, normalize, listMin, listMax, linspace, List.range_succ,
      min_def, max_def]
  have hv1 : aucpVal (fun _ x => if x = 0 then (1 : ℚ) else 0) [0, 1] =
      [1, 0, 0, 0] := by
    norm_num [aucpVal, gen_kde, normalize, listMin, listMax, linspace,
      List.range_succ, min_def, max_def]
  have hb1 : aucpBound (fun _ x => if x = 0 then (1 : ℚ) else 0) [0, 1] = 1/12 := by
    rw [aucpBound, hg, hv1]
    norm_num [normalize, listMin, listMax, min_def, max_def, median, mean,
      List.insertionSort, List.orderedInsert, auc]
  have hv2 : aucpVal (fun _ _ => 1) [0, 1] = [0, 0, 0, 0] := by
    norm_num [aucpVal, gen_kde, normalize, listMin, listMax, linspace,
      List.range_succ, min_def, max_def]
  have hb2 : aucpBound (fun _ _ => 1) [0, 1] = 0 := by
    rw [aucpBound, hg, hv2]
    norm_num [auc]
  constructor
  · refine (claim4_amended (fun _ x => if x = 0 then (1 : ℚ) else 0) ⟨none⟩
      [0, 1]).1 1 ?_ ?_ ?_
    · rw [hg]
      norm_num
    · rw [hg, hv1, hb1]
      norm_num [auc]
    · intro j hj
      interval_cases j
      rw [hg, hv1, hb1]
      norm_num [auc]
  · refine (claim4_amended (fun _ _ => 1) ⟨none⟩ [0, 1]).2.1 (by simp) ?_
    intro i hi
    rw [hg, hv2, hb2]
    have hi3 : i < 3 := by
      rw [hg] at hi
      simp only [List.length_cons, List.length_nil] at hi
      omega
    interval_cases i <;> norm_num [auc]

/-- C5: `FGD.eval` sets `thresh_` to the midpoint of the grid locations of
the first two indices i (scanning left to right) where the discrete KDE
derivative satisfies `deriv[i] > 0` and `deriv[i+1] ≤ 0`; if fewer than two
such indices exist, `thresh_ = 1.1` and every label is 0 (all-inlier), since
normalized scores never exceed 1. -/
theorem claim5_fgd_inflection (density : List ℚ → ℚ → ℚ) (s : FGD.State)
    (decision : List ℚ) :
    (∀ i0 i1, i0 < i1 → fgdP density decision i0 → fgdP density decision i1 →
      (∀ j, j < i1 → j ≠ i0 → ¬ fgdP density decision j) →
      (FGD.eval density s decision).1.thresh_ =
        some (((fgdGrid decision).getD i0 0 + (fgdGrid decision).getD i1 0) / 2)) ∧
    ((∀ i0 i1, i0 < i1 → ¬ (fgdP density decision i0 ∧ fgdP density decision i1)) →
      (FGD.eval density s decision).1.thresh_ = some 1.1 ∧
      ∀ y ∈ (FGD.eval density s decision).2, y = 0) := by
  have hlen : ∀ i, fgdP density decision i →
      i < (fgdDeriv density decision).length - 1 := by
    intro i hPi
    have h1 := hPi.1
    omega
  constructor
  · intro i0 i1 h01 hP0 hP1 hmin
    have hfilter : ∃ rest, fgdInds (fgdDeriv density decision) = i0 :: i1 :: rest := by
      refine filter_range_first_two h01 (hlen i1 hP1) ?_ ?_ ?_
      · simp only [Bool.and_eq_true, decide_eq_true_eq]
        exact ⟨hP0.2.1, hP0.2.2⟩
      · simp only [Bool.and_eq_true, decide_eq_true_eq]
        exact ⟨hP1.2.1, hP1.2.2⟩
      · intro j hj hne
        have hnP := hmin j hj hne
        have hjlen : j + 1 < (fgdDeriv density decision).length := by
          have := hlen i1 hP1
          omega
        simp only [fgdP, not_and] at hnP
        show (decide (0 < (fgdDeriv density decision).getD j 0) &&
          decide ((fgdDeriv density decision).getD (j + 1) 0 ≤ 0)) = false
        rcases Decidable.em (0 < (fgdDeriv density decision).getD j 0) with hpos | hpos
        · rw [decide_eq_false (hnP hjlen hpos), Bool.and_false]
        · rw [decide_eq_false hpos, Bool.false_and]
    obtain ⟨rest, hrest⟩ := hfilter
    rw [fgd_eval_eq]
    have : fgdLimit density decision =
        ((fgdGrid decision).getD i0 0 + (fgdGrid decision).getD i1 0) / 2 := by
      rw [fgdLimit, hrest]
    rw [this]
  · intro h
    have hlim : fgdLimit density decision = 1.1 := by
      rw [fgdLimit]
      rcases hinds : fgdInds (fgdDeriv density decision) with _ | ⟨x, _ | ⟨y, rest⟩⟩
      · rfl
      · rfl
      · exfalso
        have hnodup : (x :: y :: rest).Nodup := by
          rw [← hinds]
          exact (List.nodup_range _).filter _
        have hx : x ∈ fgdInds (fgdDeriv density decision) := by
          rw [hinds]; exact List.mem_cons_self _ _
        have hy : y ∈ fgdInds (fgdDeriv density decision) := by
          rw [hinds]; exact List.mem_cons.mpr (Or.inr (List.mem_cons_self _ _))
        have hPx : fgdP density decision x := by
          have hmem := List.mem_filter.mp hx
          have hrange := List.mem_range.mp hmem.1
          have hb := hmem.2
          simp only [Bool.and_eq_true, decide_eq_true_eq] at hb
          exact ⟨by omega, hb.1, hb.2⟩
        have hPy : fgdP density decision y := by
          have hmem := List.mem_filter.mp hy
          have hrange := List.mem_range.mp hmem.1
          have hb := hmem.2
          simp only [Bool.and_eq_true, decide_eq_true_eq] at hb
          exact ⟨by omega, hb.1, hb.2⟩
        have hxy : x ≠ y := by
          have := (List.nodup_cons.mp hnodup).1
          intro hcontra
          exact this (hcontra ▸ List.mem_cons_self _ _)
        rcases Nat.lt_or_ge x y with hlt | hge
        · exact h x y hlt ⟨hPx, hPy⟩
        · exact h y x (by omega) ⟨hPy, hPx⟩
    rw [fgd_eval_eq, hlim]
    refine ⟨rfl, cut_eq_zero_of_le (fun x hx => ?_)⟩
    calc x ≤ 1 := mem_normalize_le_one hx
    _ ≤ 1.1 := by norm_num

/-- Witness for C5: a density putting bumps at `1/5` and `4/5` of the
six-point grid produces derivative sign transitions exactly at indices 0 and
3, so the threshold is the midpoint `(0 + 3/5)/2 = 3/10`. -/
theorem claim5_witness :
    (FGD.eval (fun _ x => if x = 1/5 ∨ x = 4/5 then (1 : ℚ) else 0) ⟨none⟩
        [0, 1]).1.thresh_ =
      some (((fgdGrid [0, 1]).getD 0 0 + (fgdGrid [0, 1]).getD 3 0) / 2) := by
  have hderiv : fgdDeriv (fun _ x => if x = 1/5 ∨ x = 4/5 then (1 : ℚ) else 0)
      [0, 1] = [5, 0, -5/2, 5/2, 0, -5] := by
    norm_num [fgdDeriv, fgdGrid, gen_kde, normalize, listMin, listMax, linspace,
      List.range_succ, min_def, max_def, npGradient]
  refine (claim5_fgd_inflection (fun _ x => if x = 1/5 ∨ x = 4/5 then (1 : ℚ)
      else 0) ⟨none⟩ [0, 1]).1 0 3 (by norm_num) ?_ ?_ ?_
  · simp only [fgdP, hderiv]
    norm_num
  · simp only [fgdP, hderiv]
    norm_num
  · intro j hj hne
    simp only [fgdP, hderiv]
    interval_cases j <;> norm_num
    omega

/-- C6: `MCST.eval` iterates over the n seeded uniform samples in order,
appending each to the normalized scores and recomputing the Shapiro-Wilk
p-value; a sample is recorded, and the running best p-value updated, exactly
when its p-value strictly exceeds the current best (a greedy,
order-dependent search); `thresh_` is the minimum recorded sample, or 1.1 if
no sample improves the p-value. -/
theorem claim6_mcst_greedy (shapiro : List ℚ → ℚ) (rvs : ℕ → ℕ → List ℚ)
    (s : MCST.State) (decision : List ℚ) :
    (∀ k, k < (mcstRnd rvs s decision).length →
      mcstRun shapiro rvs s decision (k + 1) =
        (if (mcstRun shapiro rvs s decision k).1 <
            shapiro (normalize decision ++ [(mcstRnd rvs s decision).getD k 0])
         then (shapiro (normalize decision ++ [(mcstRnd rvs s decision).getD k 0]),
            (mcstRun shapiro rvs s decision k).2 ++
              [(mcstRnd rvs s decision).getD k 0])
         else mcstRun shapiro rvs s decision k)) ∧
    (mcstPovr shapiro rvs s decision = [] →
      (MCST.eval shapiro rvs s decision).1.thresh_ = some 1.1) ∧
    (mcstPovr shapiro rvs s decision ≠ [] →
      (MCST.eval shapiro rvs s decision).1.thresh_ =
        some (listMin (mcstPovr shapiro rvs s decision)) ∧
      listMin (mcstPovr shapiro rvs s decision) ∈ mcstPovr shapiro rvs s decision ∧
      ∀ x ∈ mcstPovr shapiro rvs s decision,
        listMin (mcstPovr shapiro rvs s decision) ≤ x) := by
  refine ⟨?_, ?_, ?_⟩
  · intro k hk
    exact foldl_take_succ (shapiroStep shapiro (normalize decision))
      (shapiro (normalize decision), []) (mcstRnd rvs s decision) 0 hk
  · intro h
    rw [MCST.eval_thresh, if_pos h]
  · intro h
    rw [MCST.eval_thresh, if_neg h]
    exact ⟨rfl, listMin_mem h, fun x hx => listMin_le hx⟩

/-- Witness for C6: with a p-value given by the sample length and two
constant seeded samples, the first sample strictly improves the p-value and
is recorded, the second does not; the threshold is the minimum (here, the
only) recorded sample. -/
theorem claim6_witness :
    (mcstRun (fun l => (l.length : ℚ)) (fun size _ => List.replicate size (1/2))
        ⟨1234, none⟩ [0, 1] 1 =
      (if (mcstRun (fun l => (l.length : ℚ)) (fun size _ => List.replicate size (1/2))
            ⟨1234, none⟩ [0, 1] 0).1 <
          ((normalize [0, 1] ++ [(mcstRnd (fun size _ => List.replicate size (1/2))
            ⟨1234, none⟩ [0, 1]).getD 0 0]).length : ℚ)
       then (((normalize [0, 1] ++ [(mcstRnd (fun size _ => List.replicate size (1/2))
            ⟨1234, none⟩ [0, 1]).getD 0 0]).length : ℚ),
          (mcstRun (fun l => (l.length : ℚ)) (fun size _ => List.replicate size (1/2))
            ⟨1234, none⟩ [0, 1] 0).2 ++
            [(mcstRnd (fun size _ => List.replicate size (1/2))
              ⟨1234, none⟩ [0, 1]).getD 0 0])
       else mcstRun (fun l => (l.length : ℚ)) (fun size _ => List.replicate size (1/2))
          ⟨1234, none⟩ [0, 1] 0)) ∧
    (MCST.eval (fun l => (l.length : ℚ)) (fun size _ => List.replicate size (1/2))
        ⟨1234, none⟩ [0, 1]).1.thresh_ =
      some (listMin (mcstPovr (fun l => (l.length : ℚ))
        (fun size _ => List.replicate size (1/2)) ⟨1234, none⟩ [0, 1])) := by
  have h := claim6_mcst_greedy (fun l => (l.length : ℚ))
    (fun size _ => List.replicate size (1/2)) ⟨1234, none⟩ [0, 1]
  have hlen : (mcstRnd (fun size _ => List.replicate size ((1 : ℚ)/2))
      ⟨1234, none⟩ [0, 1]).length = 2 := by
    simp [mcstRnd, normalize]
  have hne : mcstPovr (fun l => (l.length : ℚ))
      (fun size _ => List.replicate size (1/2)) ⟨1234, none⟩ [0, 1] ≠ [] := by
    have hrnd : mcstRnd (fun size _ => List.replicate size ((1 : ℚ)/2))
        ⟨1234, none⟩ [0, 1] = [0, 0] := by
      norm_num [mcstRnd, normalize, listMin, listMax, min_def, max_def,
        List.replicate]
    rw [mcstPovr, hrnd]
    norm_num [mcstRun, hrnd, shapiroStep, normalize, listMin, listMax,
      min_def, max_def]
  exact ⟨h.1 0 (by rw [hlen]; norm_num), (h.2.2 hne).1⟩

/-- C7: `DECOMP.eval` sets the threshold to the maximum value of the
one-component decomposition (PCA or NMF, per the configured method) of the
normalized CDF values treated as a single-feature matrix; when that maximum
is strictly greater than 0.5 the threshold is replaced by 1 minus it before
being stored in `thresh_` and used to cut. -/
theorem claim7_decomp_max (cdfEst : List ℚ → ℚ → ℚ) (s : DECOMP.State)
    (decision : List ℚ) (h : s.decomp (decompVal cdfEst decision) ≠ []) :
    ∃ m, m ∈ s.decomp (decompVal cdfEst decision) ∧
      (∀ x ∈ s.decomp (decompVal cdfEst decision), x ≤ m) ∧
      (DECOMP.eval cdfEst s decision).1.thresh_ =
        some (if (0.5 : ℚ) < m then 1 - m else m) ∧
      (DECOMP.eval cdfEst s decision).2 =
        cut (normalize decision) (if (0.5 : ℚ) < m then 1 - m else m) := by
  refine ⟨listMax (s.decomp (decompVal cdfEst decision)), listMax_mem h,
    fun x hx => listMax_ge hx, ?_, ?_⟩
  · rw [decomp_eval_eq]
    rfl
  · rw [decomp_eval_eq]
    rfl

/-- Witness for C7: the identity decomposition of the identity CDF estimate
on `[0, 1]` has maximum 1 > 0.5, so the stored threshold is the reflected
value `1 - 1 = 0`. -/
theorem claim7_witness :
    ∃ m, m ∈ decompVal (fun _ x => x) [0, 1] ∧
      (∀ x ∈ decompVal (fun _ x => x) [0, 1], x ≤ m) ∧
      (DECOMP.eval (fun _ x => x) ⟨fun l => l, none⟩ [0, 1]).1.thresh_ =
        some (if (0.5 : ℚ) < m then 1 - m else m) ∧
      (DECOMP.eval (fun _ x => x) ⟨fun l => l, none⟩ [0, 1]).2 =
        cut (normalize [0, 1]) (if (0.5 : ℚ) < m then 1 - m else m) :=
  claim7_decomp_max (fun _ x => x) ⟨fun l => l, none⟩ [0, 1]
    (by
      simp only [decompVal, gen_cdf, normalize, linspace]
      simp)

/-- C8: Two `eval` calls on the same strategy instance with identical input
produce identical `thresh_` and identical label vectors for the
non-randomized strategies (AUCP, DECOMP, FGD, HIST); for MCST, two `eval`
calls with the same `random_state` and the same input produce identical
`thresh_` and labels. -/
theorem claim8_determinism (density cdfEst : List ℚ → ℚ → ℚ)
    (shapiro : List ℚ → ℚ) (rvs : ℕ → ℕ → List ℚ) (sa : AUCP.State)
    (sf : FGD.State) (sd : DECOMP.State) (sm : MCST.State) (sh : HIST.State)
    (decision : List ℚ) :
    AUCP.eval density (AUCP.eval density sa decision).1 decision =
      AUCP.eval density sa decision ∧
    DECOMP.eval cdfEst (DECOMP.eval cdfEst sd decision).1 decision =
      DECOMP.eval cdfEst sd decision ∧
    FGD.eval density (FGD.eval density sf decision).1 decision =
      FGD.eval density sf decision ∧
    HIST.eval (HIST.eval sh decision).1 decision = HIST.eval sh decision ∧
    MCST.eval shapiro rvs (MCST.eval shapiro rvs sm decision).1 decision =
      MCST.eval shapiro rvs sm decision :=
  ⟨rfl, rfl, rfl, rfl, rfl⟩

/-- C9: A HIST instance constructed with `nbins=None` lazily computes its
default bin count from the first `eval` call's input length and retains it
on the instance across subsequent `eval` calls (so a later call on an input
of different length reuses the first call's bin count); apart from `thresh_`
and this bin count, `eval` changes no other instance state. -/
theorem claim9_hist_lazy_nbins (sh : HIST.State) (d1 d2 : List ℚ)
    (h : sh.nbins = none) :
    (HIST.eval sh d1).1.nbins = some ⌊(0.7 : ℚ) * (d1.length : ℚ)⌋₊ ∧
    (HIST.eval (HIST.eval sh d1).1 d2).1.nbins =
      some ⌊(0.7 : ℚ) * (d1.length : ℚ)⌋₊ ∧
    (HIST.eval (HIST.eval sh d1).1 d2).1.thresh_ =
      some (sh.threshFn (normalize d2)
        (histogram (normalize d2) ⌊(0.7 : ℚ) * (d1.length : ℚ)⌋₊).1
        (histogram (normalize d2) ⌊(0.7 : ℚ) * (d1.length : ℚ)⌋₊).2) ∧
    (HIST.eval sh d1).1.threshFn = sh.threshFn ∧
    (HIST.eval (HIST.eval sh d1).1 d2).1.threshFn = sh.threshFn := by
  have hnb : histNb sh d1 = ⌊(0.7 : ℚ) * (d1.length : ℚ)⌋₊ := by
    rw [histNb, h, Option.getD_none, normalize_length]
  have hnb2 : histNb (HIST.eval sh d1).1 d2 = histNb sh d1 := rfl
  refine ⟨?_, ?_, ?_, rfl, rfl⟩
  · rw [hist_eval_eq]
    simpa using hnb
  · rw [hist_eval_eq (HIST.eval sh d1).1 d2]
    simpa using hnb2.trans hnb
  · rw [hist_eval_eq (HIST.eval sh d1).1 d2]
    show some (histLimit (HIST.eval sh d1).1 d2) = _
    rw [histLimit, hnb2, hnb]
    rfl

/-- Witness for C9: the bin count 1 computed from the first length-2 input is
reused on a second, length-3 input (whose own default would have been 2). -/
theorem claim9_witness :
    (HIST.eval ⟨fun _ _ _ => 0, none, none⟩ [0, 1]).1.nbins =
      some ⌊(0.7 : ℚ) * (([0, 1] : List ℚ).length : ℚ)⌋₊ ∧
    (HIST.eval (HIST.eval ⟨fun _ _ _ => 0, none, none⟩ [0, 1]).1
        [0, 1/2, 1]).1.nbins =
      some ⌊(0.7 : ℚ) * (([0, 1] : List ℚ).length : ℚ)⌋₊ ∧
    (HIST.eval (HIST.eval ⟨fun _ _ _ => 0, none, none⟩ [0, 1]).1
        [0, 1/2, 1]).1.thresh_ =
      some ((fun (_ : List ℚ) (_ : List ℚ) (_ : List ℕ) => (0 : ℚ))
        (normalize [0, 1/2, 1])
        (histogram (normalize [0, 1/2, 1])
          ⌊(0.7 : ℚ) * (([0, 1] : List ℚ).length : ℚ)⌋₊).1
        (histogram (normalize [0, 1/2, 1])
          ⌊(0.7 : ℚ) * (([0, 1] : List ℚ).length : ℚ)⌋₊).2) ∧
    (HIST.eval ⟨fun _ _ _ => 0, none, none⟩ [0, 1]).1.threshFn =
      (fun (_ : List ℚ) (_ : List ℚ) (_ : List ℕ) => (0 : ℚ)) ∧
    (HIST.eval (HIST.eval ⟨fun _ _ _ => 0, none, none⟩ [0, 1]).1
        [0, 1/2, 1]).1.threshFn =
      (fun (_ : List ℚ) (_ : List ℚ) (_ : List ℕ) => (0 : ℚ)) :=
  claim9_hist_lazy_nbins ⟨fun _ _ _ => 0, none, none⟩ [0, 1] [0, 1/2, 1] rfl

/-- Witness for C8 at a concrete input of length 2. -/
theorem claim8_witness :
    AUCP.eval (fun _ _ => 1) (AUCP.eval (fun _ _ => 1) ⟨none⟩ [0, 1]).1 [0, 1] =
      AUCP.eval (fun _ _ => 1) ⟨none⟩ [0, 1] ∧
    DECOMP.eval (fun _ x => x)
        (DECOMP.eval (fun _ x => x) ⟨fun l => l, none⟩ [0, 1]).1 [0, 1] =
      DECOMP.eval (fun _ x => x) ⟨fun l => l, none⟩ [0, 1] ∧
    FGD.eval (fun _ _ => 1) (FGD.eval (fun _ _ => 1) ⟨none⟩ [0, 1]).1 [0, 1] =
      FGD.eval (fun _ _ => 1) ⟨none⟩ [0, 1] ∧
    HIST.eval (HIST.eval ⟨fun _ _ _ => 1/2, none, none⟩ [0, 1]).1 [0, 1] =
      HIST.eval ⟨fun _ _ _ => 1/2, none, none⟩ [0, 1] ∧
    MCST.eval (fun l => (l.length : ℚ)) (fun size _ => List.replicate size (1/2))
        (MCST.eval (fun l => (l.length : ℚ))
          (fun size _ => List.replicate size (1/2)) ⟨1234, none⟩ [0, 1]).1 [0, 1] =
      MCST.eval (fun l => (l.length : ℚ)) (fun size _ => List.replicate size (1/2))
        ⟨1234, none⟩ [0, 1] :=
  claim8_determinism (fun _ _ => 1) (fun _ x => x) (fun l => (l.length : ℚ))
    (fun size _ => List.replicate size (1/2)) ⟨none⟩ ⟨none⟩ ⟨fun l => l, none⟩
    ⟨1234, none⟩ ⟨fun _ _ _ => 1/2, none, none⟩ [0, 1]

/-- Witness for C10 at a concrete input of length 2. -/
theorem claim10_witness :
    ∃ t, (DECOMP.eval (fun _ x => x) ⟨fun l => l, none⟩ [0, 1]).1.thresh_ =
        some t ∧ t ≤ 0.5 ∧
      ((0.5 : ℚ) < listMax ((fun l : List ℚ => l)
          (decompVal (fun _ x => x) [0, 1])) → t < 0.5) :=
  claim10_decomp_thresh_le_half (fun _ x => x) ⟨fun l => l, none⟩ [0, 1]

end Pythresh

